import Mathlib

/-!
Verification of the core of `zvm.js` (a Zig version manager) against its
natural-language specification.  The JavaScript source is shallowly embedded:
filesystem reads are passed in as explicit values (`Except FsErr _` for
fallible reads), filesystem mutations become explicit operation traces applied
to an explicit state, and the network is an oracle `String → Bool`.
-/

namespace Zvm

/-- Filesystem error codes, as carried on `e.code` of Node.js errors. -/
inductive FsErr where
  | ENOENT
  | EPERM
  | other (msg : String)
deriving DecidableEq

/-- Association-list lookup by exact string key, modelling JavaScript object
property access (`obj[key]`). -/
def alookup {α : Type} (k : String) : List (String × α) → Option α
  | [] => none
  | e :: es => if k = e.1 then some e.2 else alookup k es

/-- Does `l` start with `sub`?  (Character-exact comparison.) -/
def listStartsWith : List Char → List Char → Bool
  | _, [] => true
  | [], _ :: _ => false
  | c :: cs, d :: ds => if d = c then listStartsWith cs ds else false

/-- Does `l` contain `sub` as a contiguous run?  Models
`String.prototype.includes`. -/
def listContainsSub (sub : List Char) : List Char → Bool
  | [] => listStartsWith [] sub
  | c :: cs => listStartsWith (c :: cs) sub || listContainsSub sub cs

/-- JavaScript `s.includes(sub)`. -/
def jsIncludes (s sub : String) : Bool := listContainsSub sub.toList s.toList

/-- `getAliases` (src/zvm.js:79-87): read and parse the aliases file; a missing
file (`ENOENT`) yields the empty mapping, any other failure is rethrown.  The
argument is the combined outcome of `fs.readFile` + `JSON.parse`. -/
def getAliases (readRes : Except FsErr (List (String × String))) :
    Except FsErr (List (String × String)) :=
  match readRes with
  | .ok m => .ok m
  | .error e => if e = .ENOENT then .ok [] else .error e

/-- The target the resolver searches for: `aliases[versionOrAlias] ||
versionOrAlias` (src/zvm.js:97), with JavaScript string truthiness (an empty
alias value falls back to the token). -/
def aliasTarget (aliases : List (String × String)) (tok : String) : String :=
  match alookup tok aliases with
  | some v => if v = "" then tok else v
  | none => tok

/-- The directory-matching part of `resolveVersion` (src/zvm.js:100-106):
filter the listing to names containing the target, then the three-way return. -/
def resolveFromDirs (dirs : List String) (target : String) : Option String :=
  let matching := dirs.filter (fun d => jsIncludes d target)
  if matching.length = 1 then matching.head?
  else if target ∈ matching then some target
  else
    match matching.head? with
    | some d => if d = "" then none else some d
    | none => none

/-- `resolveVersion` (src/zvm.js:94-111).  `aliasRead` is the outcome of
reading the aliases file, `dirsRes` the outcome of `fs.readdir` on the
installation root. -/
def resolveVersion (aliasRead : Except FsErr (List (String × String)))
    (dirsRes : Except FsErr (List String)) (tok : String) :
    Except FsErr (Option String) :=
  if tok = "" then .ok none
  else
    match getAliases aliasRead with
    | .error e => .error e
    | .ok aliases =>
      match dirsRes with
      | .error e => if e = .ENOENT then .ok none else .error e
      | .ok dirs => .ok (resolveFromDirs dirs (aliasTarget aliases tok))

/-! ### Mirror-aware downloader (src/zvm.js:281-304) -/

/-- The terminal error thrown when every (base URL, filename) pair fails
(src/zvm.js:303). -/
def downloadExhaustedMsg : String :=
  "Failed to download Zig from all available mirrors and the canonical source."

/-- Inner loop of `attemptDownload` (src/zvm.js:285-301): for one base URL, try
each filename in order.  `probe u` is the success of the `HEAD` request on `u`
(false covers both a non-ok status and a thrown fetch error); `get u` is the
success of the full `GET` + write of the body to the temp file.  Returns the
list of URLs probed (a `HEAD` is issued for every pair reached) and the
winning URL, if any. -/
def tryFilenames (probe get : String → Bool) (baseUrl : String) :
    List String → List String × Option String
  | [] => ([], none)
  | f :: rest =>
    let url := baseUrl ++ "/" ++ f
    if probe url && get url then ([url], some url)
    else
      (url :: (tryFilenames probe get baseUrl rest).1,
       (tryFilenames probe get baseUrl rest).2)

/-- `attemptDownload` (src/zvm.js:281-304): outer loop over base URLs; on the
first (base, filename) pair whose probe and retrieval both succeed, return the
shared temporary file path; exhausting every pair throws the terminal error. -/
def attemptDownload (probe get : String → Bool) (tempFile : String) :
    List String → List String → List String × Except String String
  | [], _ => ([], .error downloadExhaustedMsg)
  | b :: rest, filenames =>
    if (tryFilenames probe get b filenames).2.isSome then
      ((tryFilenames probe get b filenames).1, .ok tempFile)
    else
      ((tryFilenames probe get b filenames).1 ++
        (attemptDownload probe get tempFile rest filenames).1,
       (attemptDownload probe get tempFile rest filenames).2)

/-- The base-URL order built by `handleInstall` (src/zvm.js:370): community
mirrors first, the canonical source last. -/
def downloadBaseUrls (mirrors : List String) (canonical : String) : List String :=
  mirrors ++ [canonical]

/-- The full nested candidate order: every filename under the first base URL,
then every filename under the second, and so on. -/
def candidateUrls (filenames : List String) : List String → List String
  | [] => []
  | b :: rest => filenames.map (fun f => b ++ "/" ++ f) ++ candidateUrls filenames rest

/-! ### Rename with retry (src/zvm.js:312-328) -/

/-- Outcome of one `fs.rename` attempt. -/
inductive AttemptOutcome where
  | success
  | fail (code : FsErr)
deriving DecidableEq

/-- Observable run of `renameWithRetry`: how many rename attempts were issued,
how many retry warnings were logged, the sleeps performed (in ms), and the
overall outcome. -/
structure RetryRun where
  attempts : Nat
  warnings : Nat
  sleeps : List Nat
  result : Except FsErr Unit

/-- The loop of `renameWithRetry` (src/zvm.js:315-327) starting at iteration
`i`; `fuel` counts the remaining iterations (`retries - i`), so the JS
`for (let i = 0; i < retries; i++)` exits normally when fuel runs out.
`outcome n` is the result of the `n`-th `fs.rename` attempt. -/
def renameLoop (outcome : Nat → AttemptOutcome) (retries delay : Nat) :
    Nat → Nat → RetryRun
  | _, 0 => ⟨0, 0, [], .ok ()⟩
  | i, fuel + 1 =>
    match outcome i with
    | .success => ⟨1, 0, [], .ok ()⟩
    | .fail c =>
      if c = .EPERM ∧ i < retries - 1 then
        let r := renameLoop outcome retries delay (i + 1) fuel
        ⟨r.attempts + 1, r.warnings + 1, delay :: r.sleeps, r.result⟩
      else ⟨1, 0, [], .error c⟩

/-- `renameWithRetry` (src/zvm.js:312-328): 5 attempts, 300 ms between them. -/
def renameWithRetry (outcome : Nat → AttemptOutcome) : RetryRun :=
  renameLoop outcome 5 300 0 5

/-! ### Atomic install (src/zvm.js:374-394) -/

/-- Relevant slice of the filesystem: directories (path ↦ contained file
names) and plain files (the downloaded archive). -/
structure FS where
  dirs : List (String × List String)
  files : List String

/-- The primitive filesystem mutations `handleInstall` performs after the
download: `fs.mkdir {recursive}`, one step of `tar -xf` placing a payload file
into the staging directory, `fs.rename`, and `fs.unlink`. -/
inductive FsOp where
  | mkdirRec (p : String)
  | extractFile (dir f : String)
  | rename (src dst : String)
  | unlinkFile (p : String)
deriving DecidableEq

/-- Effect of one operation on the filesystem. -/
def applyOp (fs : FS) : FsOp → FS
  | .mkdirRec p =>
    if (alookup p fs.dirs).isSome then fs else ⟨fs.dirs ++ [(p, [])], fs.files⟩
  | .extractFile d f =>
    ⟨fs.dirs.map (fun e => if e.1 = d then (e.1, e.2 ++ [f]) else e), fs.files⟩
  | .rename src dst =>
    match alookup src fs.dirs with
    | some content => ⟨fs.dirs.filter (fun e => e.1 ≠ src) ++ [(dst, content)], fs.files⟩
    | none => fs
  | .unlinkFile p => ⟨fs.dirs, fs.files.filter (fun q => q ≠ p)⟩

/-- Apply a trace of operations in order. -/
def applyOps (fs : FS) : List FsOp → FS
  | [] => fs
  | op :: rest => applyOps (applyOp fs op) rest

/-- The staging suffix: `tempInstallPath = finalInstallPath + ".tmp"`
(src/zvm.js:378). -/
def stagingPath (finalPath : String) : String := finalPath ++ ".tmp"

/-- User-visible outcome of the post-download part of `handleInstall`. -/
inductive InstallOutcome where
  | alreadyInstalled
  | installed
deriving DecidableEq

/-- The post-download steps of `handleInstall` (src/zvm.js:380-394) as an
operation trace.  `finExists` is the result of the `fs.access` check on the
final path; `payload` is the list of files the archive extracts.  When the
final path already exists the function logs the conflict, deletes the archive
and returns; otherwise it creates the staging directory, extracts into it,
renames it into place and deletes the archive. -/
def installCommitOps (finalPath archive : String) (payload : List String)
    (finExists : Bool) : List FsOp × InstallOutcome :=
  if finExists then ([.unlinkFile archive], .alreadyInstalled)
  else
    (.mkdirRec (stagingPath finalPath) ::
      payload.map (fun f => .extractFile (stagingPath finalPath) f) ++
      [.rename (stagingPath finalPath) finalPath, .unlinkFile archive],
     .installed)

/-- One full run of the post-download part of `handleInstall` from filesystem
state `fs₀`: the trace, the outcome, and the final state. -/
def installRun (fs₀ : FS) (finalPath archive : String) (payload : List String) :
    List FsOp × InstallOutcome × FS :=
  let (ops, out) :=
    installCommitOps finalPath archive payload (alookup finalPath fs₀.dirs).isSome
  (ops, out, applyOps fs₀ ops)

/-! ### Activation manager (src/zvm.js:408-423, 467-473) -/

/-- `path.join(a, b)` for the cases used here. -/
def pathJoin (a b : String) : String := a ++ "/" ++ b

/-- The two link operations `handleUse` performs on the Active Link
(src/zvm.js:469-473): an unlink whose `ENOENT` is swallowed, then creation of
a fresh link. -/
inductive LinkOp where
  | unlinkIgnoreMissing
  | createLink (target : String)
deriving DecidableEq

/-- Active-Link state: `some target` when the link exists. -/
def applyLinkOp : Option String → LinkOp → Option String
  | _, .unlinkIgnoreMissing => none
  | _, .createLink t => some t

/-- The activation section of `handleUse` (src/zvm.js:467-473): remove any
pre-existing link (absence ignored), then link to the resolved directory. -/
def activateOps (sourceDir : String) : List LinkOp :=
  [.unlinkIgnoreMissing, .createLink sourceDir]

/-- Activate `d` under installation root `installBase`, starting from link
state `st`. -/
def activate (st : Option String) (installBase d : String) : Option String :=
  (activateOps (pathJoin installBase d)).foldl applyLinkOp st

/-- Messages `handleDeactivate` can emit. -/
inductive DeactivateMsg where
  | success (s : String)
  | info (s : String)
deriving DecidableEq

/-- `handleDeactivate` (src/zvm.js:408-423): unlink the Active Link; a missing
link (`ENOENT`) is reported informationally, not as an error. -/
def handleDeactivate (st : Option String) : Option String × DeactivateMsg :=
  match st with
  | some _ => (none, .success "Deactivated Zig. No version is currently active.")
  | none => (none, .info "No version is currently active.")

/-! ### Remove (src/zvm.js:188-245) -/

/-- Persistent state touched by `handleRemove`: the Active Link (basename of
its target), the installed directory names, and the alias store. -/
structure ZvmState where
  activeLink : Option String
  dirs : List String
  aliases : List (String × String)
deriving DecidableEq

/-- Mutating events `handleRemove` performs, in order. -/
inductive RemoveEvent where
  | unlinkActiveLink
  | removeDir (d : String)
  | writeAliases (m : List (String × String))
deriving DecidableEq

/-- User-visible outcome of `handleRemove`. -/
inductive RemoveMsg where
  | errNoArg
  | errNotFound (tok : String)
  | removed (d : String)
deriving DecidableEq

/-- `handleRemove` (src/zvm.js:188-245): resolve the token; if the resolved
directory is the Active Link's target, deactivate first; delete the version
directory; drop every alias whose target is the removed directory, rewriting
the alias file only when at least one alias was dropped. -/
def handleRemove (st : ZvmState) (tok : String) :
    ZvmState × List RemoveEvent × RemoveMsg :=
  if tok = "" then (st, [], .errNoArg)
  else
    match resolveVersion (.ok st.aliases) (.ok st.dirs) tok with
    | .error _ => (st, [], .errNotFound tok)
    | .ok none => (st, [], .errNotFound tok)
    | .ok (some d) =>
      let (link1, evs1) :=
        if st.activeLink = some d then ((none : Option String), [RemoveEvent.unlinkActiveLink])
        else (st.activeLink, [])
      let dirs1 := st.dirs.filter (fun x => x ≠ d)
      let cleaned := st.aliases.filter (fun e => e.2 ≠ d)
      let removedAliases := st.aliases.filter (fun e => e.2 = d)
      let (al1, evs2) :=
        if removedAliases.isEmpty then (st.aliases, ([] : List RemoveEvent))
        else (cleaned, [RemoveEvent.writeAliases cleaned])
      (⟨link1, dirs1, al1⟩, evs1 ++ RemoveEvent.removeDir d :: evs2, .removed d)

/-! ### Version normalization (src/zvm.js:252-273)

`getZigPackageInfo` normalizes a non-dev requested version with
`zigVersion.match(/\d+\.\d+\.\d+(-dev\.\d+\+[0-9a-f]+)?/)[0]`.
JavaScript `match` (no global flag) returns the leftmost match, extended
greedily; when no match exists it returns `null` and the `[0]` access throws.
Because every quantified class in this regex is followed by a character
outside the class (`\d+` by `.`, `-` or `+`; `[0-9a-f]+` ends the pattern),
greedy matching coincides with maximal munch, so the engine is embedded as a
deterministic maximal-munch parser tried at each start position from the
left. -/

/-- The character class `[0-9a-f]`. -/
def isHexLower (c : Char) : Bool := c.isDigit || ('a' ≤ c && c ≤ 'f')

/-- Maximal-munch parse of one-or-more characters satisfying `p` (the regex
`p+`): the longest such run and the rest, or `none` when the run is empty. -/
def parseRun (p : Char → Bool) (l : List Char) : Option (List Char × List Char) :=
  if (l.takeWhile p).isEmpty then none
  else some (l.takeWhile p, l.dropWhile p)

/-- Strip an exact literal from the head of the input (a literal in the
regex): the rest on success, `none` otherwise. -/
def stripLead : List Char → List Char → Option (List Char)
  | l, [] => some l
  | [], _ :: _ => none
  | c :: cs, d :: ds => if c = d then stripLead cs ds else none

/-- The literal `-dev.` of the suffix group. -/
def devLit : List Char := ['-', 'd', 'e', 'v', '.']

/-- The head of `r`, if any, fails `p` — the reason a maximal munch stops. -/
def headFails (p : Char → Bool) : List Char → Prop
  | [] => True
  | c :: _ => p c = false

/-- The optional suffix group `(-dev\.\d+\+[0-9a-f]+)` matched at the head of
the input; returns the matched characters. -/
def matchDevSuffix (r : List Char) : Option (List Char) :=
  match stripLead r devLit with
  | none => none
  | some r1 =>
    match parseRun Char.isDigit r1 with
    | none => none
    | some (n, r2) =>
      match stripLead r2 ['+'] with
      | none => none
      | some r3 =>
        match parseRun isHexLower r3 with
        | none => none
        | some (h, _) => some (devLit ++ n ++ '+' :: h)

/-- The whole pattern `\d+\.\d+\.\d+(-dev\.\d+\+[0-9a-f]+)?` matched at the
head of the input; returns the matched characters. -/
def matchSemverAt (l : List Char) : Option (List Char) :=
  match parseRun Char.isDigit l with
  | none => none
  | some (a, r1) =>
    match stripLead r1 ['.'] with
    | none => none
    | some r2 =>
      match parseRun Char.isDigit r2 with
      | none => none
      | some (b, r3) =>
        match stripLead r3 ['.'] with
        | none => none
        | some r4 =>
          match parseRun Char.isDigit r4 with
          | none => none
          | some (c, r5) =>
            match matchDevSuffix r5 with
            | some s => some (a ++ '.' :: b ++ '.' :: c ++ s)
            | none => some (a ++ '.' :: b ++ '.' :: c)

/-- JavaScript `String.prototype.match` without the global flag: the match at
the leftmost start position where one exists. -/
def jsMatchFirst : List Char → Option (List Char)
  | [] => none
  | c :: cs =>
    match matchSemverAt (c :: cs) with
    | some m => some m
    | none => jsMatchFirst cs

/-- The normalization step of `getZigPackageInfo` (src/zvm.js:257-261):
versions containing `-dev` are used verbatim; otherwise the regex match is
taken, and a failed match (`null[0]` in JavaScript) is a thrown `TypeError`,
modelled as `none`. -/
def zigVersionNorm (zigVersion : String) : Option String :=
  if jsIncludes zigVersion "-dev" then some zigVersion
  else (jsMatchFirst zigVersion.toList).map (fun m => String.mk m)

/-- The two candidate archive filenames (src/zvm.js:263-266), differing in
whether the OS or the architecture token comes first. -/
def potentialFilenames (osTarget archTarget ext norm : String) : List String :=
  ["zig-" ++ osTarget ++ "-" ++ archTarget ++ "-" ++ norm ++ "." ++ ext,
   "zig-" ++ archTarget ++ "-" ++ osTarget ++ "-" ++ norm ++ "." ++ ext]

/-! Spec-side description of the pattern, written from the specification's
words ("the `MAJOR.MINOR.PATCH` pattern with an optional `-dev.N+hash`
suffix") for comparison with the source-side matcher. -/

/-- All characters are decimal digits. -/
def allDigits (l : List Char) : Bool := l.all Char.isDigit

/-- All characters are lowercase hex digits. -/
def allHex (l : List Char) : Bool := l.all isHexLower

/-- Modelled from the spec: the optional `-dev.N+hash` suffix. -/
def DevSuffixPat (s : List Char) : Prop :=
  ∃ n h, s = '-' :: 'd' :: 'e' :: 'v' :: '.' :: (n ++ '+' :: h) ∧
    n ≠ [] ∧ allDigits n = true ∧ h ≠ [] ∧ allHex h = true

/-- Modelled from the spec: a word of the `MAJOR.MINOR.PATCH[-dev.N+hash]`
pattern. -/
def VersionPat (m : List Char) : Prop :=
  ∃ a b c s, m = a ++ '.' :: b ++ '.' :: c ++ s ∧
    a ≠ [] ∧ allDigits a = true ∧ b ≠ [] ∧ allDigits b = true ∧
    c ≠ [] ∧ allDigits c = true ∧ (s = [] ∨ DevSuffixPat s)

/-- The pattern occurs at the head of `l` with matched word `m`. -/
def MatchesAt (l m : List Char) : Prop := ∃ r, l = m ++ r ∧ VersionPat m

/-- The install-with-alias collision check (src/zvm.js:342-348): when an alias
name was requested, read the alias store and report a conflict when the name
is already bound (JavaScript truthiness: a binding to the empty string does
not count).  Errors from the alias read propagate. -/
def installAliasConflict (aliasRead : Except FsErr (List (String × String)))
    (aliasName : String) : Except FsErr Bool :=
  if aliasName = "" then .ok false
  else
    match getAliases aliasRead with
    | .error e => .error e
    | .ok aliases =>
      .ok (match alookup aliasName aliases with
           | some v => v != ""
           | none => false)

/-- An operation that cannot bring `finalPath` into existence. -/
def opAvoids (finalPath : String) : FsOp → Prop
  | .mkdirRec p => p ≠ finalPath
  | .extractFile _ _ => True
  | .rename _ dst => dst ≠ finalPath
  | .unlinkFile _ => True

/-! ## Helper lemmas -/

theorem listStartsWith_self (l : List Char) : listStartsWith l l = true := by
  induction l with
  | nil => rfl
  | cons c cs ih => simp [listStartsWith, ih]

theorem jsIncludes_self (s : String) : jsIncludes s s = true := by
  unfold jsIncludes
  cases h : s.toList with
  | nil => rfl
  | cons c cs => simp [listContainsSub, listStartsWith_self]

/-! ## Claims -/

/-- C6: the activation state machine has states No-Active and Active(dir):
`activate d` from either state ends in Active(d) — any pre-existing link is
removed first, then a fresh link to d's directory is created — and
`deactivate` from either state ends in No-Active, absence of the link being
reported informationally rather than as an error. -/
theorem C6_activation_state_machine :
    (∀ (st : Option String) (installBase d : String),
      activate st installBase d = some (pathJoin installBase d)) ∧
    (∀ st : Option String, (handleDeactivate st).1 = none) ∧
    (handleDeactivate none).2 = .info "No version is currently active." ∧
    (∀ t : String, (handleDeactivate (some t)).2 =
      .success "Deactivated Zig. No version is currently active.") := by
  refine ⟨fun st installBase d => rfl, fun st => ?_, rfl, fun t => rfl⟩
  cases st <;> rfl

/-- C10: a missing alias file reads as the empty mapping, so alias-consuming
operations behave as on a fresh installation, while any other read or parse
error of the alias file propagates as an exception. -/
theorem C10_missing_alias_file :
    getAliases (.error .ENOENT) = .ok [] ∧
    (∀ e : FsErr, e ≠ .ENOENT → getAliases (.error e) = .error e) ∧
    (∀ (dirsRes : Except FsErr (List String)) (tok : String),
      resolveVersion (.error .ENOENT) dirsRes tok = resolveVersion (.ok []) dirsRes tok) ∧
    (∀ a : String,
      installAliasConflict (.error .ENOENT) a = installAliasConflict (.ok []) a) := by
  refine ⟨rfl, fun e he => by simp [getAliases, he], fun dirsRes tok => ?_, fun a => ?_⟩
  · simp only [resolveVersion, getAliases, reduceIte]
  · simp only [installAliasConflict, getAliases, reduceIte]

/-- Witness for C10 at a concrete non-`ENOENT` error. -/
theorem C10_missing_alias_file_witness :
    getAliases (.error .EPERM) = .error .EPERM :=
  C10_missing_alias_file.2.1 .EPERM (by decide)

/-- C9: `resolveVersion` returns not-found (`null`) rather than throwing when
the installation root does not exist (`ENOENT`), when it is empty, and when it
contains no directory whose name includes the resolved target. -/
theorem C9_resolve_not_found (aliasRead : Except FsErr (List (String × String)))
    (aliases : List (String × String)) (tok : String)
    (hga : getAliases aliasRead = .ok aliases) :
    resolveVersion aliasRead (.error .ENOENT) tok = .ok none ∧
    resolveVersion aliasRead (.ok []) tok = .ok none ∧
    (∀ dirs : List String,
      (∀ d ∈ dirs, jsIncludes d (aliasTarget aliases tok) = false) →
      resolveVersion aliasRead (.ok dirs) tok = .ok none) := by
  by_cases htok : tok = ""
  · subst htok
    exact ⟨rfl, rfl, fun dirs _ => rfl⟩
  · refine ⟨by simp [resolveVersion, htok, hga], by simp [resolveVersion, htok, hga, resolveFromDirs], ?_⟩
    intro dirs hd
    have hfil : dirs.filter (fun x => jsIncludes x (aliasTarget aliases tok)) = [] :=
      List.filter_eq_nil_iff.mpr (fun x hx => by simp [hd x hx])
    simp [resolveVersion, htok, hga, resolveFromDirs, hfil]

/-- Witness for C9 at concrete inputs. -/
theorem C9_resolve_not_found_witness :
    resolveVersion (.ok []) (.error .ENOENT) "0.99.9" = .ok none ∧
    resolveVersion (.ok []) (.ok []) "0.99.9" = .ok none ∧
    resolveVersion (.ok []) (.ok ["zig-linux-x86_64-0.11.0"]) "0.99.9" = .ok none := by
  have h := C9_resolve_not_found (.ok []) [] "0.99.9" rfl
  exact ⟨h.1, h.2.1, h.2.2 ["zig-linux-x86_64-0.11.0"] (by decide)⟩

/-- C7 counterexample: the claim quantifies over every installed-directory
name, but resolution consults the alias store first (src/zvm.js:97), so an
alias carrying the same name as an installed directory shadows it: here
`zig-0.11.0` is installed, yet `resolve("zig-0.11.0")` returns
`zig-0.12.0`. -/
theorem C7_counterexample :
    "zig-0.11.0" ∈ ["zig-0.11.0", "zig-0.12.0"] ∧
    resolveVersion (.ok [("zig-0.11.0", "zig-0.12.0")])
      (.ok ["zig-0.11.0", "zig-0.12.0"]) "zig-0.11.0" = .ok (some "zig-0.12.0") ∧
    ("zig-0.12.0" : String) ≠ "zig-0.11.0" :=
  ⟨by decide, by rfl, by decide⟩

/-- C7 (amended): for every non-empty installed-directory name `d` that is not
bound as an alias name, `resolve(d)` returns `d`, even when `d` is a proper
substring of another installed directory's name: the exact match is preferred
over any partial match. -/
theorem C7_exact_match (aliasRead : Except FsErr (List (String × String)))
    (aliases : List (String × String)) (dirs : List String) (d : String)
    (hga : getAliases aliasRead = .ok aliases)
    (hali : alookup d aliases = none) (hne : d ≠ "") (hd : d ∈ dirs) :
    resolveVersion aliasRead (.ok dirs) d = .ok (some d) := by
  have htar : aliasTarget aliases d = d := by simp [aliasTarget, hali]
  have hmem : d ∈ dirs.filter (fun x => jsIncludes x d) :=
    List.mem_filter.mpr ⟨hd, jsIncludes_self d⟩
  simp only [resolveVersion, hne, if_false, hga, htar, reduceIte]
  unfold resolveFromDirs
  by_cases hlen : (dirs.filter (fun x => jsIncludes x d)).length = 1
  · obtain ⟨a, ha⟩ := List.length_eq_one.mp hlen
    rw [ha] at hmem
    simp only [List.mem_singleton] at hmem
    subst hmem
    simp [hlen, ha]
  · simp [hlen, hmem]

/-- Witness for C7 (amended): `zig-linux-x86_64-0.11.0` is installed and a
proper substring of `zig-linux-x86_64-0.11.0-bootstrap`, and resolves to
itself. -/
theorem C7_exact_match_witness :
    resolveVersion (.ok [("lts", "zig-linux-x86_64-0.12.0")])
      (.ok ["zig-linux-x86_64-0.11.0", "zig-linux-x86_64-0.11.0-bootstrap"])
      "zig-linux-x86_64-0.11.0" = .ok (some "zig-linux-x86_64-0.11.0") :=
  C7_exact_match _ _ _ _ rfl (by decide) (by decide) (by decide)

/-- C4: when the final installed-directory name already exists, install
reports the non-fatal conflict, leaves the existing directory untouched,
creates no staging directory (the trace is a single unlink), and deletes the
downloaded archive before returning. -/
theorem C4_already_installed (fs₀ : FS) (finalPath archive : String)
    (payload : List String) (h : (alookup finalPath fs₀.dirs).isSome = true) :
    installRun fs₀ finalPath archive payload =
      ([.unlinkFile archive], .alreadyInstalled,
        ⟨fs₀.dirs, fs₀.files.filter (fun q => q ≠ archive)⟩) := by
  simp [installRun, installCommitOps, h, applyOps, applyOp]

/-- Witness for C4 at a concrete filesystem state. -/
theorem C4_already_installed_witness :
    (alookup "zig-linux-x86_64-0.11.0" [("zig-linux-x86_64-0.11.0", ["zig"])]).isSome = true ∧
    installRun ⟨[("zig-linux-x86_64-0.11.0", ["zig"])], ["dl.tar.xz"]⟩
      "zig-linux-x86_64-0.11.0" "dl.tar.xz" ["zig"] =
      ([.unlinkFile "dl.tar.xz"], .alreadyInstalled,
        ⟨[("zig-linux-x86_64-0.11.0", ["zig"])], []⟩) :=
  ⟨by decide, by rw [C4_already_installed _ _ _ _ (by decide)]; rfl⟩

/-- C3: the commit rename is attempted up to 5 times with a fixed 300 ms sleep
between attempts; a failed attempt is retried only on a permission-style
error (`EPERM`); a rename failing with `EPERM` on the first 4 attempts and
succeeding on the 5th is an overall success with exactly 4 retry warnings; a
non-permission error is immediately fatal; 6 consecutive permission failures
are fatal (the loop stops after its 5th attempt). -/
theorem C3_rename_retry :
    (∀ outcome : Nat → AttemptOutcome,
      (∀ i, i < 4 → outcome i = .fail .EPERM) → outcome 4 = .success →
      renameWithRetry outcome = ⟨5, 4, [300, 300, 300, 300], .ok ()⟩) ∧
    (∀ (outcome : Nat → AttemptOutcome) (c : FsErr), c ≠ .EPERM →
      outcome 0 = .fail c → renameWithRetry outcome = ⟨1, 0, [], .error c⟩) ∧
    (∀ outcome : Nat → AttemptOutcome,
      (∀ i, i < 6 → outcome i = .fail .EPERM) →
      renameWithRetry outcome = ⟨5, 4, [300, 300, 300, 300], .error .EPERM⟩) := by
  refine ⟨fun outcome h h4 => ?_, fun outcome c hc h0 => ?_, fun outcome h => ?_⟩
  · have h0 := h 0 (by norm_num)
    have h1 := h 1 (by norm_num)
    have h2 := h 2 (by norm_num)
    have h3 := h 3 (by norm_num)
    simp [renameWithRetry, renameLoop, h0, h1, h2, h3, h4]
  · simp [renameWithRetry, renameLoop, h0, hc]
  · have h0 := h 0 (by norm_num)
    have h1 := h 1 (by norm_num)
    have h2 := h 2 (by norm_num)
    have h3 := h 3 (by norm_num)
    have h4 := h 4 (by norm_num)
    simp [renameWithRetry, renameLoop, h0, h1, h2, h3, h4]

/-- Witness for C3: a concrete outcome sequence failing with `EPERM` on the
first 4 attempts and succeeding on the 5th. -/
theorem C3_rename_retry_witness :
    renameWithRetry (fun i => if i < 4 then .fail .EPERM else .success) =
      ⟨5, 4, [300, 300, 300, 300], .ok ()⟩ :=
  C3_rename_retry.1 _ (fun i hi => by simp [hi]) (by norm_num)

/-- C5: removing an installed version that resolves from the user's token
while it is the active version first unlinks the Active Link, then deletes the
version's directory, then drops exactly the aliases whose target is the
removed directory (rewriting the alias file only when one existed). -/
theorem C5_remove_active (st : ZvmState) (tok d : String)
    (hres : resolveVersion (.ok st.aliases) (.ok st.dirs) tok = .ok (some d))
    (hact : st.activeLink = some d) :
    (handleRemove st tok).2.1 =
      .unlinkActiveLink :: .removeDir d ::
        (if (st.aliases.filter (fun e => e.2 = d)).isEmpty then ([] : List RemoveEvent)
         else [.writeAliases (st.aliases.filter (fun e => e.2 ≠ d))]) ∧
    (handleRemove st tok).1.activeLink = none ∧
    (handleRemove st tok).1.dirs = st.dirs.filter (fun x => x ≠ d) ∧
    (handleRemove st tok).1.aliases = st.aliases.filter (fun e => e.2 ≠ d) ∧
    (handleRemove st tok).2.2 = .removed d := by
  have htok : tok ≠ "" := by
    intro h
    rw [h] at hres
    simp [resolveVersion] at hres
  by_cases hemp : (st.aliases.filter (fun e => e.2 = d)).isEmpty
  · have hnil : st.aliases.filter (fun e => e.2 = d) = [] := List.isEmpty_iff.mp hemp
    have hself : st.aliases.filter (fun e => e.2 ≠ d) = st.aliases := by
      refine List.filter_eq_self.mpr (fun e he => ?_)
      have : e.2 ≠ d := by
        intro hed
        have hm : e ∈ st.aliases.filter (fun x => x.2 = d) :=
          List.mem_filter.mpr ⟨he, by simp [hed]⟩
        rw [hnil] at hm
        cases hm
      simpa using this
    have hself2 : st.aliases.filter (fun e => !decide (e.2 = d)) = st.aliases := by
      simpa [ne_eq, decide_not] using hself
    simp [handleRemove, htok, hres, hact, hemp, hself2]
  · simp [handleRemove, htok, hres, hact, hemp]

/-- Witness for C5 at a concrete state: the active `zig-0.11.0` is removed via
its alias token, the link is unlinked, the directory deleted, and the alias
pointing at it dropped while the other alias is kept. -/
theorem C5_remove_active_witness :
    (handleRemove ⟨some "zig-0.11.0", ["zig-0.11.0", "zig-0.12.0"],
        [("lts", "zig-0.11.0"), ("next", "zig-0.12.0")]⟩ "lts").2.1 =
      [.unlinkActiveLink, .removeDir "zig-0.11.0",
       .writeAliases [("next", "zig-0.12.0")]] ∧
    (handleRemove ⟨some "zig-0.11.0", ["zig-0.11.0", "zig-0.12.0"],
        [("lts", "zig-0.11.0"), ("next", "zig-0.12.0")]⟩ "lts").1 =
      ⟨none, ["zig-0.12.0"], [("next", "zig-0.12.0")]⟩ := by
  have h := C5_remove_active
    ⟨some "zig-0.11.0", ["zig-0.11.0", "zig-0.12.0"],
      [("lts", "zig-0.11.0"), ("next", "zig-0.12.0")]⟩
    "lts" "zig-0.11.0" (by rfl) rfl
  refine ⟨by rw [h.1]; rfl, ?_⟩
  have h2 := h.2.1
  have h3 := h.2.2.1
  have h4 := h.2.2.2.1
  cases he : (handleRemove ⟨some "zig-0.11.0", ["zig-0.11.0", "zig-0.12.0"],
      [("lts", "zig-0.11.0"), ("next", "zig-0.12.0")]⟩ "lts").1 with
  | mk a b c =>
    rw [he] at h2 h3 h4
    simp only at h2 h3 h4
    rw [h2, h3, h4]
    rfl

/-! Helper lemmas for the downloader ordering. -/

theorem find?_append_some {α : Type} {p : α → Bool} {l₁ : List α} {u : α}
    (l₂ : List α) (h : l₁.find? p = some u) : (l₁ ++ l₂).find? p = some u := by
  induction l₁ with
  | nil => simp at h
  | cons a l ih =>
    cases hpa : p a
    · rw [List.find?_cons_of_neg _ (by simp [hpa])] at h
      rw [List.cons_append, List.find?_cons_of_neg _ (by simp [hpa]), ih h]
    · rw [List.find?_cons_of_pos _ hpa] at h
      rw [List.cons_append, List.find?_cons_of_pos _ hpa, h]

theorem find?_append_none {α : Type} {p : α → Bool} {l₁ : List α}
    (l₂ : List α) (h : l₁.find? p = none) : (l₁ ++ l₂).find? p = l₂.find? p := by
  induction l₁ with
  | nil => rfl
  | cons a l ih =>
    have hpa : p a = false := by
      cases hp : p a
      · rfl
      · rw [List.find?_cons_of_pos _ hp] at h
        cases h
    rw [List.find?_cons_of_neg _ (by simp [hpa])] at h
    rw [List.cons_append, List.find?_cons_of_neg _ (by simp [hpa]), ih h]

theorem takeWhile_append_of_found {α : Type} {p : α → Bool} {l₁ : List α} {u : α}
    (l₂ : List α) (h : l₁.find? p = some u) :
    (l₁ ++ l₂).takeWhile (fun x => !p x) = l₁.takeWhile (fun x => !p x) := by
  induction l₁ with
  | nil => simp at h
  | cons a l ih =>
    cases hpa : p a
    · rw [List.find?_cons_of_neg _ (by simp [hpa])] at h
      rw [List.cons_append, List.takeWhile_cons_of_pos (by simp [hpa]),
        List.takeWhile_cons_of_pos (by simp [hpa]), ih h]
    · rw [List.cons_append, List.takeWhile_cons_of_neg (by simp [hpa]),
        List.takeWhile_cons_of_neg (by simp [hpa])]

theorem takeWhile_append_of_none {α : Type} {p : α → Bool} {l₁ : List α}
    (l₂ : List α) (h : l₁.find? p = none) :
    (l₁ ++ l₂).takeWhile (fun x => !p x) = l₁ ++ l₂.takeWhile (fun x => !p x) := by
  induction l₁ with
  | nil => rfl
  | cons a l ih =>
    have hpa : p a = false := by
      cases hp : p a
      · rfl
      · rw [List.find?_cons_of_pos _ hp] at h
        cases h
    rw [List.find?_cons_of_neg _ (by simp [hpa])] at h
    rw [List.cons_append, List.takeWhile_cons_of_pos (by simp [hpa]), ih h,
      List.cons_append]

/-- The inner filename loop, success case: it probes the filename candidates
of one base URL in order and stops at the first success. -/
theorem tryFilenames_some (probe get : String → Bool) (b : String)
    (fs : List String) (u : String)
    (h : (fs.map (fun f => b ++ "/" ++ f)).find? (fun x => probe x && get x) = some u) :
    tryFilenames probe get b fs =
      ((fs.map (fun f => b ++ "/" ++ f)).takeWhile (fun x => !(probe x && get x)) ++ [u],
       some u) := by
  induction fs with
  | nil => simp at h
  | cons f rest ih =>
    rw [List.map_cons] at h
    cases hp : (probe (b ++ "/" ++ f) && get (b ++ "/" ++ f))
    · rw [List.find?_cons_of_neg _ (by simp [hp])] at h
      simp only [tryFilenames, hp, Bool.false_eq_true, if_neg, ih h, List.map_cons]
      rw [List.takeWhile_cons_of_pos (by simp [hp])]
      simp
    · rw [@List.find?_cons_of_pos String (fun x => probe x && get x) (b ++ "/" ++ f)
          (rest.map (fun f => b ++ "/" ++ f)) hp] at h
      cases h
      simp only [tryFilenames, hp, if_pos, List.map_cons]
      rw [List.takeWhile_cons_of_neg (by simp [hp])]
      simp

/-- The inner filename loop, exhaustion case: every candidate of this base URL
is probed and none succeeds. -/
theorem tryFilenames_none (probe get : String → Bool) (b : String)
    (fs : List String)
    (h : (fs.map (fun f => b ++ "/" ++ f)).find? (fun x => probe x && get x) = none) :
    tryFilenames probe get b fs = (fs.map (fun f => b ++ "/" ++ f), none) := by
  induction fs with
  | nil => rfl
  | cons f rest ih =>
    rw [List.map_cons] at h
    have hp : (probe (b ++ "/" ++ f) && get (b ++ "/" ++ f)) = false := by
      cases hpp : (probe (b ++ "/" ++ f) && get (b ++ "/" ++ f))
      · rfl
      · rw [@List.find?_cons_of_pos String (fun x => probe x && get x) (b ++ "/" ++ f)
            (rest.map (fun f => b ++ "/" ++ f)) hpp] at h
        cases h
    rw [List.find?_cons_of_neg _ (by simp [hp])] at h
    simp [tryFilenames, hp, ih h]

/-- The downloader, success case: the probed list is exactly the nested-order
candidate list up to and including the first pair whose probe and retrieval
succeed, and the temporary file path is returned. -/
theorem attemptDownload_some (probe get : String → Bool) (tempFile : String)
    (filenames : List String) (bases : List String) (u : String)
    (h : (candidateUrls filenames bases).find? (fun x => probe x && get x) = some u) :
    attemptDownload probe get tempFile bases filenames =
      ((candidateUrls filenames bases).takeWhile (fun x => !(probe x && get x)) ++ [u],
       .ok tempFile) := by
  induction bases with
  | nil => simp [candidateUrls] at h
  | cons b rest ih =>
    rw [candidateUrls] at h
    cases hA : (filenames.map (fun f => b ++ "/" ++ f)).find? (fun x => probe x && get x) with
    | some w =>
      have hw : w = u := by
        rw [find?_append_some _ hA] at h
        cases h
        rfl
      subst hw
      rw [attemptDownload, tryFilenames_some probe get b filenames w hA]
      simp only [Option.isSome_some, if_pos, candidateUrls]
      rw [takeWhile_append_of_found _ hA]
    | none =>
      rw [find?_append_none _ hA] at h
      rw [attemptDownload, tryFilenames_none probe get b filenames hA]
      simp only [Option.isSome_none, Bool.false_eq_true, if_neg, ih h, candidateUrls]
      rw [takeWhile_append_of_none _ hA]
      simp

/-- The downloader, exhaustion case: every candidate is probed in nested order
and the terminal error is thrown. -/
theorem attemptDownload_none (probe get : String → Bool) (tempFile : String)
    (filenames : List String) (bases : List String)
    (h : (candidateUrls filenames bases).find? (fun x => probe x && get x) = none) :
    attemptDownload probe get tempFile bases filenames =
      (candidateUrls filenames bases, .error downloadExhaustedMsg) := by
  induction bases with
  | nil => rfl
  | cons b rest ih =>
    rw [candidateUrls] at h
    have hA : (filenames.map (fun f => b ++ "/" ++ f)).find? (fun x => probe x && get x) = none := by
      cases hA : (filenames.map (fun f => b ++ "/" ++ f)).find? (fun x => probe x && get x) with
      | none => rfl
      | some w =>
        rw [find?_append_some _ hA] at h
        cases h
    rw [find?_append_none _ hA] at h
    rw [attemptDownload, tryFilenames_none probe get b filenames hA]
    simp [ih h, candidateUrls]

/-- C2: for every ordered mirror list with the canonical source appended last
and every ordered filename list, the downloader probes the (base URL,
filename) pairs in exactly the nested order — all filenames under the first
base URL, then all under the second, and so on; at the first pair whose probe
and retrieval succeed it returns the temporary file path having probed no
later pair; and when every pair fails it throws the terminal error naming the
exhaustion of all mirrors and the canonical source. -/
theorem C2_download_order (probe get : String → Bool) (tempFile : String)
    (mirrors : List String) (canonical : String) (filenames : List String) :
    (∀ u, (candidateUrls filenames (downloadBaseUrls mirrors canonical)).find?
        (fun x => probe x && get x) = some u →
      attemptDownload probe get tempFile (downloadBaseUrls mirrors canonical) filenames =
        ((candidateUrls filenames (downloadBaseUrls mirrors canonical)).takeWhile
            (fun x => !(probe x && get x)) ++ [u],
         .ok tempFile)) ∧
    ((candidateUrls filenames (downloadBaseUrls mirrors canonical)).find?
        (fun x => probe x && get x) = none →
      attemptDownload probe get tempFile (downloadBaseUrls mirrors canonical) filenames =
        (candidateUrls filenames (downloadBaseUrls mirrors canonical),
         .error downloadExhaustedMsg)) :=
  ⟨fun u h => attemptDownload_some probe get tempFile filenames _ u h,
   fun h => attemptDownload_none probe get tempFile filenames _ h⟩

/-- Witness for C2: the specification's own example — mirrors `[M1, M2]`,
canonical `C`, filenames `[F1, F2]`, with only `M2/F2` existing: exactly
`M1/F1, M1/F2, M2/F1, M2/F2` are probed, in that order, and the download
succeeds from `M2/F2`. -/
theorem C2_download_order_witness :
    attemptDownload (fun u => u = "M2/F2") (fun _ => true) "tmpfile"
        (downloadBaseUrls ["M1", "M2"] "C") ["F1", "F2"] =
      (["M1/F1", "M1/F2", "M2/F1", "M2/F2"], .ok "tmpfile") := by
  have h := (C2_download_order (fun u => u = "M2/F2") (fun _ => true) "tmpfile"
    ["M1", "M2"] "C" ["F1", "F2"]).1 "M2/F2" (by rfl)
  rw [h]
  rfl

/-! Helper lemmas for the install trace. -/

theorem alookup_append {α : Type} (k : String) (A B : List (String × α)) :
    alookup k (A ++ B) =
      match alookup k A with
      | some v => some v
      | none => alookup k B := by
  induction A with
  | nil => rfl
  | cons e es ih =>
    by_cases h : k = e.1
    · simp [alookup, h]
    · simp [alookup, h, ih]

theorem alookup_filter_none {α : Type} (k : String) (p : String × α → Bool)
    (l : List (String × α)) (h : alookup k l = none) :
    alookup k (l.filter p) = none := by
  induction l with
  | nil => rfl
  | cons e es ih =>
    rw [alookup] at h
    by_cases hk : k = e.1
    · rw [if_pos hk] at h
      cases h
    · rw [if_neg hk] at h
      by_cases hp : p e = true
      · rw [List.filter_cons_of_pos hp, alookup, if_neg hk]
        exact ih h
      · rw [List.filter_cons_of_neg (by simpa using hp)]
        exact ih h

theorem alookup_extract (k d f : String) (l : List (String × List String)) :
    alookup k (l.map (fun e => if e.1 = d then (e.1, e.2 ++ [f]) else e)) =
      (alookup k l).map (fun v => if k = d then v ++ [f] else v) := by
  induction l with
  | nil => rfl
  | cons e es ih =>
    by_cases hed : e.1 = d
    · by_cases hk : k = e.1
      · have hkd : k = d := hk.trans hed
        simp [alookup, hed, hk, hkd]
      · have hkd : ¬ k = d := fun hh => hk (hh.trans hed.symm)
        simp [alookup, hed, hk, hkd, ih]
    · by_cases hk : k = e.1
      · have hkd : ¬ k = d := fun hh => hed (by rw [← hk]; exact hh)
        simp [alookup, hed, hk, hkd]
      · simp [alookup, hed, hk, ih]

theorem applyOps_append (fs : FS) (A B : List FsOp) :
    applyOps fs (A ++ B) = applyOps (applyOps fs A) B := by
  induction A generalizing fs with
  | nil => rfl
  | cons op rest ih => rw [List.cons_append, applyOps, applyOps, ih]

/-- A single operation that avoids `finalPath` cannot create it. -/
theorem applyOp_avoids (finalPath : String) (fs : FS) (op : FsOp)
    (hop : opAvoids finalPath op) (h : alookup finalPath fs.dirs = none) :
    alookup finalPath (applyOp fs op).dirs = none := by
  cases op with
  | mkdirRec p =>
    by_cases hex : (alookup p fs.dirs).isSome = true
    · simpa [applyOp, hex] using h
    · rw [applyOp, if_neg hex]
      simp only
      rw [alookup_append, h]
      simp only
      rw [alookup, if_neg (fun hh : finalPath = p => hop hh.symm)]
      rfl
  | extractFile d f =>
    rw [applyOp]
    simp only
    rw [alookup_extract, h]
    rfl
  | rename src dst =>
    rw [applyOp]
    cases hc : alookup src fs.dirs with
    | none => exact h
    | some content =>
      simp only
      rw [alookup_append, alookup_filter_none _ _ _ h]
      simp only
      rw [alookup, if_neg (fun hh : finalPath = dst => hop hh.symm)]
      rfl
  | unlinkFile p => exact h

/-- A trace of operations all avoiding `finalPath` cannot create it. -/
theorem applyOps_avoids (finalPath : String) (ops : List FsOp) (fs : FS)
    (hops : ∀ op ∈ ops, opAvoids finalPath op) (h : alookup finalPath fs.dirs = none) :
    alookup finalPath (applyOps fs ops).dirs = none := by
  induction ops generalizing fs with
  | nil => exact h
  | cons op rest ih =>
    rw [applyOps]
    exact ih (applyOp fs op) (fun o ho => hops o (List.mem_cons_of_mem _ ho))
      (applyOp_avoids finalPath fs op (hops op (List.mem_cons_self _ _)) h)

/-- Extracting the payload files one by one into the staging directory appends
exactly the payload to its contents. -/
theorem applyOps_extract (tmp : String) (payload : List String) (fs : FS)
    (l₀ : List String) (h : alookup tmp fs.dirs = some l₀) :
    alookup tmp
      (applyOps fs (payload.map (fun f => FsOp.extractFile tmp f))).dirs =
      some (l₀ ++ payload) := by
  induction payload generalizing fs l₀ with
  | nil => simpa using h
  | cons f ps ih =>
    rw [List.map_cons, applyOps]
    have hstep : alookup tmp (applyOp fs (FsOp.extractFile tmp f)).dirs = some (l₀ ++ [f]) := by
      rw [applyOp]
      simp only
      rw [alookup_extract, h]
      simp
    rw [ih _ _ hstep]
    simp

/-- Renaming the staging directory onto an absent final path installs its full
contents there. -/
theorem applyOp_rename_commit (tmp finalPath : String) (fs : FS) (content : List String)
    (hsrc : alookup tmp fs.dirs = some content)
    (hdst : alookup finalPath fs.dirs = none) :
    alookup finalPath (applyOp fs (FsOp.rename tmp finalPath)).dirs = some content := by
  rw [applyOp, hsrc]
  simp only
  rw [alookup_append, alookup_filter_none _ _ _ hdst]
  simp [alookup]

/-- The staging path differs from the final path. -/
theorem stagingPath_ne (p : String) : stagingPath p ≠ p := by
  intro h
  have hlen := congrArg String.length h
  rw [stagingPath, String.length_append] at hlen
  have h4 : (".tmp" : String).length = 4 := rfl
  omega

/-- From a state holding the staging directory, extraction followed by the
commit rename and the archive unlink yields the staged contents plus the full
payload at the final path. -/
theorem install_trace_final (fs₁ : FS) (tmp finalPath archive : String)
    (payload : List String) (l₀ : List String)
    (hl₀ : alookup tmp fs₁.dirs = some l₀)
    (hfin : alookup finalPath fs₁.dirs = none) :
    alookup finalPath
      (applyOps fs₁ (payload.map (fun f => FsOp.extractFile tmp f) ++
        [FsOp.rename tmp finalPath, FsOp.unlinkFile archive])).dirs =
      some (l₀ ++ payload) := by
  rw [applyOps_append]
  have hext := applyOps_extract tmp payload fs₁ l₀ hl₀
  have hfin2 : alookup finalPath
      (applyOps fs₁ (payload.map (fun f => FsOp.extractFile tmp f))).dirs = none :=
    applyOps_avoids finalPath _ fs₁
      (fun op hop => by
        obtain ⟨f, hf, hop2⟩ := List.mem_map.mp hop
        rw [← hop2]
        trivial)
      hfin
  exact applyOp_rename_commit tmp finalPath _ _ hext hfin2

/-- C1: for every install run reaching the extraction phase (the final path
absent after the conflict check), the final installed path does not exist at
any point up to and including full extraction into the staging directory (the
final path plus the fixed `.tmp` suffix); the trace's remaining steps are
exactly the commit rename followed by the archive unlink; and after the full
run the final path exists and contains the complete extracted payload. -/
theorem C1_install_staging (fs₀ : FS) (finalPath archive : String)
    (payload : List String) (h : alookup finalPath fs₀.dirs = none) :
    (∀ k, k ≤ 1 + payload.length →
      alookup finalPath
        (applyOps fs₀
          (((installRun fs₀ finalPath archive payload).1).take k)).dirs = none) ∧
    ((installRun fs₀ finalPath archive payload).1).drop (1 + payload.length) =
      [.rename (stagingPath finalPath) finalPath, .unlinkFile archive] ∧
    (∃ l, alookup finalPath
        ((installRun fs₀ finalPath archive payload).2.2).dirs = some l ∧
      ∀ f ∈ payload, f ∈ l) := by
  have hops : (installRun fs₀ finalPath archive payload).1 =
      (FsOp.mkdirRec (stagingPath finalPath) ::
        payload.map (fun f => FsOp.extractFile (stagingPath finalPath) f)) ++
        [FsOp.rename (stagingPath finalPath) finalPath, FsOp.unlinkFile archive] := by
    simp [installRun, installCommitOps, h]
  have hstate : (installRun fs₀ finalPath archive payload).2.2 =
      applyOps fs₀ ((installRun fs₀ finalPath archive payload).1) := by
    simp [installRun]
  have hsafe : ∀ op ∈ (FsOp.mkdirRec (stagingPath finalPath) ::
      payload.map (fun f => FsOp.extractFile (stagingPath finalPath) f)),
      opAvoids finalPath op := by
    intro op hop
    rcases List.mem_cons.mp hop with h1 | h2
    · rw [h1]
      exact stagingPath_ne finalPath
    · obtain ⟨f, hf, hop2⟩ := List.mem_map.mp h2
      rw [← hop2]
      trivial
  refine ⟨?_, ?_, ?_⟩
  · intro k hk
    rw [hops, List.take_append_of_le_length (by simp; omega)]
    exact applyOps_avoids finalPath _ fs₀
      (fun op hop => hsafe op (List.take_subset _ _ hop)) h
  · rw [hops]
    have hlen : (FsOp.mkdirRec (stagingPath finalPath) ::
        payload.map (fun f => FsOp.extractFile (stagingPath finalPath) f)).length =
        1 + payload.length := by
      simp [Nat.add_comm]
    rw [← hlen, List.drop_left]
  · have hmk : ∃ l₀, alookup (stagingPath finalPath)
        (applyOp fs₀ (FsOp.mkdirRec (stagingPath finalPath))).dirs = some l₀ := by
      rw [applyOp]
      by_cases hex : (alookup (stagingPath finalPath) fs₀.dirs).isSome = true
      · obtain ⟨l₀, hl⟩ := Option.isSome_iff_exists.mp hex
        exact ⟨l₀, by rw [if_pos hex]; exact hl⟩
      · refine ⟨[], ?_⟩
        rw [if_neg hex]
        simp only
        rw [alookup_append, Option.not_isSome_iff_eq_none.mp hex]
        simp [alookup]
    obtain ⟨l₀, hl₀⟩ := hmk
    have hfin1 : alookup finalPath
        (applyOp fs₀ (FsOp.mkdirRec (stagingPath finalPath))).dirs = none :=
      applyOp_avoids finalPath fs₀ _ (stagingPath_ne finalPath) h
    refine ⟨l₀ ++ payload, ?_, fun f hf => List.mem_append_right l₀ hf⟩
    rw [hstate, hops]
    rw [List.cons_append, applyOps]
    exact install_trace_final _ (stagingPath finalPath) finalPath archive payload l₀ hl₀ hfin1

/-- Witness for C1 on a concrete run: with an empty filesystem, a two-file
payload, the final path is still absent after the trace prefix ending with
full extraction (k = 3), and the full run installs both payload files at the
final path. -/
theorem C1_install_staging_witness :
    alookup "zig-0.11.0"
      (applyOps ⟨[], []⟩
        (((installRun ⟨[], []⟩ "zig-0.11.0" "a.tar.xz" ["zig", "LICENSE"]).1).take 3)).dirs
      = none ∧
    (∃ l, alookup "zig-0.11.0"
        ((installRun ⟨[], []⟩ "zig-0.11.0" "a.tar.xz" ["zig", "LICENSE"]).2.2).dirs = some l ∧
      ∀ f ∈ (["zig", "LICENSE"] : List String), f ∈ l) := by
  have h := C1_install_staging ⟨[], []⟩ "zig-0.11.0" "a.tar.xz" ["zig", "LICENSE"] rfl
  exact ⟨h.1 3 (by norm_num), h.2.2⟩

/-! Helper lemmas for the version-pattern matcher. -/

theorem takeWhile_headFails {p : Char → Bool} {r : List Char} (h : headFails p r) :
    r.takeWhile p = [] := by
  cases r with
  | nil => rfl
  | cons c cs =>
    have hc : p c = false := h
    exact List.takeWhile_cons_of_neg (by simp [hc])

theorem dropWhile_headFails {p : Char → Bool} {r : List Char} (h : headFails p r) :
    r.dropWhile p = r := by
  cases r with
  | nil => rfl
  | cons c cs =>
    have hc : p c = false := h
    exact List.dropWhile_cons_of_neg (by simp [hc])

theorem takeWhile_append_all {p : Char → Bool} {A : List Char} (r : List Char)
    (hA : A.all p = true) : (A ++ r).takeWhile p = A ++ r.takeWhile p := by
  induction A with
  | nil => rfl
  | cons c cs ih =>
    simp only [List.all_cons, Bool.and_eq_true] at hA
    rw [List.cons_append, List.takeWhile_cons_of_pos hA.1, ih hA.2, List.cons_append]

theorem dropWhile_append_all {p : Char → Bool} {A : List Char} (r : List Char)
    (hA : A.all p = true) : (A ++ r).dropWhile p = r.dropWhile p := by
  induction A with
  | nil => rfl
  | cons c cs ih =>
    simp only [List.all_cons, Bool.and_eq_true] at hA
    rw [List.cons_append, List.dropWhile_cons_of_pos hA.1, ih hA.2]

theorem parseRun_append {p : Char → Bool} {A : List Char} (r : List Char)
    (hA : A.all p = true) (hne : A ≠ []) :
    parseRun p (A ++ r) = some (A ++ r.takeWhile p, r.dropWhile p) := by
  rw [parseRun, takeWhile_append_all r hA, dropWhile_append_all r hA, if_neg]
  intro hh
  rcases List.append_eq_nil.mp (List.isEmpty_iff.mp hh) with ⟨h1, _⟩
  exact hne h1

theorem parseRun_of_run {p : Char → Bool} {A r : List Char}
    (hA : A.all p = true) (hne : A ≠ []) (hr : headFails p r) :
    parseRun p (A ++ r) = some (A, r) := by
  rw [parseRun_append r hA hne, takeWhile_headFails hr, dropWhile_headFails hr,
    List.append_nil]

theorem parseRun_sound {p : Char → Bool} {l a r : List Char}
    (h : parseRun p l = some (a, r)) :
    l = a ++ r ∧ a ≠ [] ∧ a.all p = true ∧ headFails p r := by
  rw [parseRun] at h
  by_cases hemp : (l.takeWhile p).isEmpty = true
  · rw [if_pos hemp] at h
    cases h
  · rw [if_neg hemp] at h
    injection h with h3
    have ha : l.takeWhile p = a := congrArg Prod.fst h3
    have hr : l.dropWhile p = r := congrArg Prod.snd h3
    subst ha
    subst hr
    refine ⟨(List.takeWhile_append_dropWhile p l).symm, ?_, List.all_takeWhile, ?_⟩
    · intro hh
      rw [hh] at hemp
      exact hemp rfl
    · have hd := List.head?_dropWhile_not p l
      cases hdw : l.dropWhile p with
      | nil => trivial
      | cons c cs =>
        rw [hdw] at hd
        exact hd

theorem stripLead_some {lit : List Char} : ∀ {l rest : List Char},
    stripLead l lit = some rest → l = lit ++ rest := by
  induction lit with
  | nil =>
    intro l rest h
    cases l with
    | nil => injection h
    | cons c cs => injection h
  | cons d ds ih =>
    intro l rest h
    cases l with
    | nil => cases h
    | cons c cs =>
      rw [stripLead] at h
      by_cases hc : c = d
      · rw [if_pos hc] at h
        rw [List.cons_append, ← ih h, hc]
      · rw [if_neg hc] at h
        cases h

theorem stripLead_append (lit rest : List Char) :
    stripLead (lit ++ rest) lit = some rest := by
  induction lit with
  | nil => cases rest <;> rfl
  | cons d ds ih => simp [stripLead, ih]

/-- Soundness of the suffix-group matcher: a successful match is a head
occurrence of a word of the suffix pattern. -/
theorem matchDevSuffix_sound {r s : List Char} (h : matchDevSuffix r = some s) :
    ∃ r2, r = s ++ r2 ∧ DevSuffixPat s := by
  unfold matchDevSuffix at h
  split at h
  · cases h
  next r1 h1 =>
    split at h
    · cases h
    next n r2 h2 =>
      split at h
      · cases h
      next r3 h3 =>
        split at h
        · cases h
        next hx rem h4 =>
          injection h with h5
          have hr1 := stripLead_some h1
          obtain ⟨he2, hne2, hall2, hf2⟩ := parseRun_sound h2
          have hr3 := stripLead_some h3
          obtain ⟨he4, hne4, hall4, hf4⟩ := parseRun_sound h4
          refine ⟨rem, ?_, ?_⟩
          · rw [hr1, he2, hr3, he4, ← h5]
            simp
          · rw [← h5]
            exact ⟨n, hx, by simp [devLit], hne2, hall2, hne4, hall4⟩

/-- Soundness of the full matcher: a successful match at the head of `l` is a
head occurrence of a word of the version pattern. -/
theorem matchSemverAt_sound {l m : List Char} (h : matchSemverAt l = some m) :
    MatchesAt l m := by
  unfold matchSemverAt at h
  split at h
  · cases h
  next a r1 h1 =>
    split at h
    · cases h
    next r2 h2 =>
      split at h
      · cases h
      next b r3 h3 =>
        split at h
        · cases h
        next r4 h4 =>
          split at h
          · cases h
          next c r5 h5 =>
            obtain ⟨hel, hnea, halla, hfa⟩ := parseRun_sound h1
            have hr2 := stripLead_some h2
            obtain ⟨he2, hneb, hallb, hfb⟩ := parseRun_sound h3
            have hr4 := stripLead_some h4
            obtain ⟨he4, hnec, hallc, hfc⟩ := parseRun_sound h5
            split at h
            next s hdev =>
              injection h with h6
              obtain ⟨r6, hr6, hpat⟩ := matchDevSuffix_sound hdev
              refine ⟨r6, ?_, ?_⟩
              · rw [hel, hr2, he2, hr4, he4, hr6, ← h6]
                simp
              · rw [← h6]
                exact ⟨a, b, c, s, by simp, hnea, halla, hneb, hallb, hnec, hallc,
                  Or.inr hpat⟩
            next hdev =>
              injection h with h6
              refine ⟨r5, ?_, ?_⟩
              · rw [hel, hr2, he2, hr4, he4, ← h6]
                simp
              · rw [← h6]
                exact ⟨a, b, c, [], by simp, hnea, halla, hneb, hallb, hnec, hallc,
                  Or.inl rfl⟩

/-- Completeness and greed of the suffix-group matcher: at a head occurrence
of a suffix-pattern word it succeeds, with a match at least as long. -/
theorem matchDevSuffix_complete {n hx : List Char} (r : List Char)
    (hnen : n ≠ []) (halln : allDigits n = true)
    (hneh : hx ≠ []) (hallh : allHex hx = true) :
    ∃ w, matchDevSuffix (('-' :: 'd' :: 'e' :: 'v' :: '.' :: (n ++ '+' :: hx)) ++ r) =
        some w ∧
      ('-' :: 'd' :: 'e' :: 'v' :: '.' :: (n ++ '+' :: hx)).length ≤ w.length := by
  have hshape : ('-' :: 'd' :: 'e' :: 'v' :: '.' :: (n ++ '+' :: hx)) ++ r =
      devLit ++ (n ++ '+' :: (hx ++ r)) := by simp [devLit]
  rw [hshape]
  have h1 : stripLead (devLit ++ (n ++ '+' :: (hx ++ r))) devLit =
      some (n ++ '+' :: (hx ++ r)) := stripLead_append _ _
  have h2 : parseRun Char.isDigit (n ++ '+' :: (hx ++ r)) = some (n, '+' :: (hx ++ r)) :=
    parseRun_of_run halln hnen (show Char.isDigit '+' = false by decide)
  have h3 : stripLead ('+' :: (hx ++ r)) ['+'] = some (hx ++ r) := stripLead_append ['+'] _
  have h4 : parseRun isHexLower (hx ++ r) =
      some (hx ++ r.takeWhile isHexLower, r.dropWhile isHexLower) :=
    parseRun_append r hallh hneh
  refine ⟨devLit ++ n ++ '+' :: (hx ++ r.takeWhile isHexLower), ?_, ?_⟩
  · simp only [matchDevSuffix, h1, h2, h3, h4]
  · simp only [devLit, List.length_append, List.length_cons, List.length_nil]
    omega

/-- Completeness and greed of the full matcher: at a head occurrence of a
version-pattern word it succeeds, with a match at least as long. -/
theorem matchSemverAt_complete {m : List Char} (r : List Char) (hm : VersionPat m) :
    ∃ w, matchSemverAt (m ++ r) = some w ∧ m.length ≤ w.length := by
  obtain ⟨a, b, c, s, hEq, hnea, halla, hneb, hallb, hnec, hallc, hs⟩ := hm
  subst hEq
  rcases hs with rfl | hdev
  · have hl : (a ++ '.' :: b ++ '.' :: c ++ ([] : List Char)) ++ r =
        a ++ '.' :: (b ++ '.' :: (c ++ r)) := by simp
    rw [hl]
    have h1 : parseRun Char.isDigit (a ++ '.' :: (b ++ '.' :: (c ++ r))) =
        some (a, '.' :: (b ++ '.' :: (c ++ r))) :=
      parseRun_of_run halla hnea (show Char.isDigit '.' = false by decide)
    have h2 : stripLead ('.' :: (b ++ '.' :: (c ++ r))) ['.'] =
        some (b ++ '.' :: (c ++ r)) := stripLead_append ['.'] _
    have h3 : parseRun Char.isDigit (b ++ '.' :: (c ++ r)) = some (b, '.' :: (c ++ r)) :=
      parseRun_of_run hallb hneb (show Char.isDigit '.' = false by decide)
    have h4 : stripLead ('.' :: (c ++ r)) ['.'] = some (c ++ r) := stripLead_append ['.'] _
    have h5 : parseRun Char.isDigit (c ++ r) =
        some (c ++ r.takeWhile Char.isDigit, r.dropWhile Char.isDigit) :=
      parseRun_append r hallc hnec
    cases hdv : matchDevSuffix (r.dropWhile Char.isDigit) with
    | some w2 =>
      refine ⟨a ++ '.' :: b ++ '.' :: ((c ++ r.takeWhile Char.isDigit) ++ w2), ?_, ?_⟩
      · simp only [matchSemverAt, h1, h2, h3, h4, h5, hdv]
        simp [List.append_assoc]
      · simp only [List.length_append, List.length_cons, List.length_nil]
        omega
    | none =>
      refine ⟨a ++ '.' :: b ++ '.' :: (c ++ r.takeWhile Char.isDigit), ?_, ?_⟩
      · simp only [matchSemverAt, h1, h2, h3, h4, h5, hdv]
      · simp only [List.length_append, List.length_cons, List.length_nil]
        omega
  · obtain ⟨n, hx, hsEq, hnen, halln, hneh, hallh⟩ := hdev
    subst hsEq
    have hl : (a ++ '.' :: b ++ '.' :: c ++
          ('-' :: 'd' :: 'e' :: 'v' :: '.' :: (n ++ '+' :: hx))) ++ r =
        a ++ '.' :: (b ++ '.' :: (c ++
          (('-' :: 'd' :: 'e' :: 'v' :: '.' :: (n ++ '+' :: hx)) ++ r))) := by simp
    rw [hl]
    have h1 : parseRun Char.isDigit (a ++ '.' :: (b ++ '.' :: (c ++
          (('-' :: 'd' :: 'e' :: 'v' :: '.' :: (n ++ '+' :: hx)) ++ r)))) =
        some (a, '.' :: (b ++ '.' :: (c ++
          (('-' :: 'd' :: 'e' :: 'v' :: '.' :: (n ++ '+' :: hx)) ++ r)))) :=
      parseRun_of_run halla hnea (show Char.isDigit '.' = false by decide)
    have h2 : stripLead ('.' :: (b ++ '.' :: (c ++
          (('-' :: 'd' :: 'e' :: 'v' :: '.' :: (n ++ '+' :: hx)) ++ r)))) ['.'] =
        some (b ++ '.' :: (c ++
          (('-' :: 'd' :: 'e' :: 'v' :: '.' :: (n ++ '+' :: hx)) ++ r))) :=
      stripLead_append ['.'] _
    have h3 : parseRun Char.isDigit (b ++ '.' :: (c ++
          (('-' :: 'd' :: 'e' :: 'v' :: '.' :: (n ++ '+' :: hx)) ++ r))) =
        some (b, '.' :: (c ++
          (('-' :: 'd' :: 'e' :: 'v' :: '.' :: (n ++ '+' :: hx)) ++ r))) :=
      parseRun_of_run hallb hneb (show Char.isDigit '.' = false by decide)
    have h4 : stripLead ('.' :: (c ++
          (('-' :: 'd' :: 'e' :: 'v' :: '.' :: (n ++ '+' :: hx)) ++ r))) ['.'] =
        some (c ++ (('-' :: 'd' :: 'e' :: 'v' :: '.' :: (n ++ '+' :: hx)) ++ r)) :=
      stripLead_append ['.'] _
    have h5 : parseRun Char.isDigit (c ++
          (('-' :: 'd' :: 'e' :: 'v' :: '.' :: (n ++ '+' :: hx)) ++ r)) =
        some (c, ('-' :: 'd' :: 'e' :: 'v' :: '.' :: (n ++ '+' :: hx)) ++ r) :=
      parseRun_of_run hallc hnec (show Char.isDigit '-' = false by decide)
    obtain ⟨w2, hw2, hlen2⟩ := matchDevSuffix_complete r hnen halln hneh hallh
    refine ⟨a ++ '.' :: b ++ '.' :: (c ++ w2), ?_, ?_⟩
    · simp only [matchSemverAt, h1, h2, h3, h4, h5, hw2]
      simp [List.append_assoc]
    · simp only [List.length_append, List.length_cons, List.length_nil] at hlen2 ⊢
      omega

/-- `jsMatchFirst` fails exactly when the pattern matches at no start
position. -/
theorem jsMatchFirst_none_iff (l : List Char) :
    jsMatchFirst l = none ↔ ∀ i, matchSemverAt (l.drop i) = none := by
  induction l with
  | nil =>
    constructor
    · intro _ i
      rw [List.drop_nil]
      rfl
    · intro _
      rfl
  | cons c cs ih =>
    cases hm : matchSemverAt (c :: cs) with
    | some m =>
      simp only [jsMatchFirst, hm]
      constructor
      · intro hh
        cases hh
      · intro hall
        have h0 := hall 0
        rw [List.drop_zero, hm] at h0
        cases h0
    | none =>
      simp only [jsMatchFirst, hm]
      rw [ih]
      constructor
      · intro hall i
        cases i with
        | zero =>
          rw [List.drop_zero]
          exact hm
        | succ j => simpa using hall j
      · intro hall j
        simpa using hall (j + 1)

/-- A `jsMatchFirst` success is the match at the leftmost start position where
one exists. -/
theorem jsMatchFirst_some {l m : List Char} (h : jsMatchFirst l = some m) :
    ∃ i, matchSemverAt (l.drop i) = some m ∧
      ∀ j, j < i → matchSemverAt (l.drop j) = none := by
  induction l with
  | nil => cases h
  | cons c cs ih =>
    rw [jsMatchFirst] at h
    split at h
    next w hm =>
      cases h
      exact ⟨0, by simpa using hm, fun j hj => absurd hj (Nat.not_lt_zero j)⟩
    next hm =>
      obtain ⟨i, hi, hj⟩ := ih h
      refine ⟨i + 1, by simpa using hi, ?_⟩
      intro j hjlt
      cases j with
      | zero =>
        rw [List.drop_zero]
        exact hm
      | succ j2 => simpa using hj j2 (Nat.lt_of_succ_lt_succ hjlt)

/-- C8 counterexample: the claim asserts normalization (i) yields the longest
pattern substring and (ii) never fails, for any `v` without `-dev`.  The code
takes the leftmost regex match and crashes (`null[0]`) when none exists: on
`"1.2.3 see 11.22.33"` it returns `"1.2.3"` although the longer `"11.22.33"`
is a pattern substring, and on `"master"` it fails. -/
theorem C8_counterexample :
    jsIncludes "1.2.3 see 11.22.33" "-dev" = false ∧
    zigVersionNorm "1.2.3 see 11.22.33" = some "1.2.3" ∧
    MatchesAt ((String.toList "1.2.3 see 11.22.33").drop 10)
      (String.toList "11.22.33") ∧
    (String.toList "11.22.33").length > (String.toList "1.2.3").length ∧
    jsIncludes "master" "-dev" = false ∧
    zigVersionNorm "master" = none := by
  refine ⟨by decide, by rfl, ⟨[], by decide, ?_⟩, by decide, by decide, by rfl⟩
  exact ⟨['1', '1'], ['2', '2'], ['3', '3'], [], by decide, by decide, by decide,
    by decide, by decide, by decide, by decide, Or.inl rfl⟩

/-- C8 (amended): for every requested version `v` not containing `-dev`, the
normalization takes the leftmost, greedily extended match of the
`MAJOR.MINOR.PATCH[-dev.N+hash]` pattern: it fails (a thrown `TypeError` in
the code) exactly when no pattern word occurs in `v`; and on success the
result is a pattern word occurring at a position before which no pattern word
starts, and of maximal length among the pattern words starting at that same
position. -/
theorem C8_normalization (v : String) (hdev : jsIncludes v "-dev" = false) :
    (zigVersionNorm v = none ↔ ∀ i m, ¬ MatchesAt (v.toList.drop i) m) ∧
    (∀ s, zigVersionNorm v = some s →
      ∃ i, MatchesAt (v.toList.drop i) s.toList ∧
        (∀ j m, j < i → ¬ MatchesAt (v.toList.drop j) m) ∧
        (∀ m, MatchesAt (v.toList.drop i) m → m.length ≤ s.toList.length)) := by
  have hnorm : zigVersionNorm v = (jsMatchFirst v.toList).map (fun m => String.mk m) := by
    rw [zigVersionNorm, if_neg (by simp [hdev])]
  constructor
  · rw [hnorm]
    constructor
    · intro hn i m hM
      have h0 : jsMatchFirst v.toList = none := by
        cases hj : jsMatchFirst v.toList with
        | none => rfl
        | some w =>
          rw [hj] at hn
          cases hn
      have hall := (jsMatchFirst_none_iff v.toList).mp h0 i
      obtain ⟨r, hEq, hpat⟩ := hM
      obtain ⟨w, hw, _⟩ := matchSemverAt_complete r hpat
      rw [← hEq, hall] at hw
      cases hw
    · intro hnoM
      have h0 : jsMatchFirst v.toList = none := by
        rw [jsMatchFirst_none_iff]
        intro i
        cases hj : matchSemverAt (v.toList.drop i) with
        | none => rfl
        | some m => exact absurd (matchSemverAt_sound hj) (hnoM i m)
      rw [h0]
      rfl
  · intro s hs
    rw [hnorm] at hs
    cases hj : jsMatchFirst v.toList with
    | none =>
      rw [hj] at hs
      cases hs
    | some m =>
      rw [hj] at hs
      have hsm : s.toList = m := by
        cases hs
        rfl
      obtain ⟨i, hi, hlt⟩ := jsMatchFirst_some hj
      refine ⟨i, ?_, ?_, ?_⟩
      · rw [hsm]
        exact matchSemverAt_sound hi
      · intro j m2 hjlt hM
        obtain ⟨r, hEq, hpat⟩ := hM
        obtain ⟨w, hw, _⟩ := matchSemverAt_complete r hpat
        rw [← hEq, hlt j hjlt] at hw
        cases hw
      · intro m2 hM
        obtain ⟨r, hEq, hpat⟩ := hM
        obtain ⟨w, hw, hlen⟩ := matchSemverAt_complete r hpat
        rw [← hEq, hi] at hw
        injection hw with hw2
        rw [hsm, hw2]
        exact hlen

/-- Witness for C8 (amended) on `"v0.11.0 (stable)"`: normalization succeeds
with a leftmost greedy match. -/
theorem C8_normalization_witness :
    ∃ i, MatchesAt ((String.toList "v0.11.0 (stable)").drop i)
        (String.toList "0.11.0") ∧
      (∀ j m, j < i → ¬ MatchesAt ((String.toList "v0.11.0 (stable)").drop j) m) ∧
      (∀ m, MatchesAt ((String.toList "v0.11.0 (stable)").drop i) m →
        m.length ≤ (String.toList "0.11.0").length) :=
  (C8_normalization "v0.11.0 (stable)" (by decide)).2 "0.11.0" (by rfl)

end Zvm
